import Mathlib

/-!
# Verification of the songbook classification-and-alignment engine

Shallow embedding of the Python sources of the `resurrexit-3` parser
(`src/parser/...`) in Lean 4, together with proofs about the embedded
definitions.  Pixel coordinates, font sizes and confidence scores are
modelled as rationals; Python strings are modelled as Lean `String` /
`List Char`; Python `int` values that are provably non-negative at every
construction site are modelled as `Nat`.

The data-container module `core/models.py` is not part of the sources;
its dataclasses (`PDFTextElement`, `ClassifiedText`, `TextType`, `Chord`,
`VerseLine`, `Verse`) are modelled from the spec (section 3, DATA MODEL)
and from their construction sites in the available sources.
-/

namespace Resurrexit

/-! ## Python string helpers -/

/-- Characters removed by Python `str.strip()` (ASCII whitespace). -/
def pyIsSpace (c : Char) : Bool :=
  c == ' ' || c == '\t' || c == '\n' || c == '\r' ||
  c == Char.ofNat 11 || c == Char.ofNat 12

/-- Python `str.strip()` on a character list. -/
def pyStripList (l : List Char) : List Char :=
  ((l.dropWhile pyIsSpace).reverse.dropWhile pyIsSpace).reverse

/-- Python `str.strip()`. -/
def pyStrip (s : String) : String :=
  ⟨pyStripList s.data⟩

/-- Python `int()` applied to a float/rational: truncation toward zero. -/
def pyTrunc (q : ℚ) : ℤ :=
  if 0 ≤ q then ⌊q⌋ else ⌈q⌉

/-- Stable insertion used by `sortByLe`; `le` must hold on ties for the
earlier element so that the sort is stable like Python `sorted`. -/
def insertLe {α : Type} (le : α → α → Bool) (a : α) : List α → List α
  | [] => [a]
  | b :: bs => if le a b then a :: b :: bs else b :: insertLe le a bs

/-- Stable sort (model of Python `sorted`, which is stable). -/
def sortByLe {α : Type} (le : α → α → Bool) (l : List α) : List α :=
  l.foldr (insertLe le) []

/-- Substring test on character lists (model of Python `needle in hay`). -/
def containsSub : List Char → List Char → Bool
  | [], n => n.isEmpty
  | h :: t, n => n.isPrefixOf (h :: t) || containsSub t n

/-- Python `s.startswith(p)` (character-list based, kernel-reducible). -/
def pyStartsWith (s p : String) : Bool :=
  p.data.isPrefixOf s.data

/-- Python `s.endswith(p)`. -/
def pyEndsWith (s p : String) : Bool :=
  p.data.reverse.isPrefixOf s.data.reverse

/-- Python `s[n:]` (drop the first `n` characters). -/
def pyDrop (s : String) (n : ℕ) : String :=
  ⟨s.data.drop n⟩

/-- Python `s[:-n]` for `n ≤ len(s)` (drop the last `n` characters). -/
def pyDropRight (s : String) (n : ℕ) : String :=
  ⟨s.data.take (s.data.length - n)⟩

/-- Python `len(s)`. -/
def pyLen (s : String) : ℕ :=
  s.data.length

/-- Fuelled scanning loop of Python `str.replace` for a non-empty pattern:
at each position, if the pattern is a prefix, emit the replacement and skip
the pattern, else keep the character and move on. -/
def replaceFuel (pat rep : List Char) : ℕ → List Char → List Char
  | 0, l => l
  | _, [] => []
  | fuel + 1, h :: t =>
    if pat.isPrefixOf (h :: t) then rep ++ replaceFuel pat rep fuel ((h :: t).drop pat.length)
    else h :: replaceFuel pat rep fuel t

/-- Python `s.replace(pat, rep)`; all the call sites in the embedded
sources use a non-empty `pat`, and for non-empty `pat` this is exactly
Python's left-to-right non-overlapping replacement. -/
def pyReplace (s pat rep : String) : String :=
  if pat.data = [] then s
  else ⟨replaceFuel pat.data rep.data s.data.length s.data⟩

/-! ## `ImprovedPDFExtractor.arial_char_widths` and `get_char_width`
(`src/parser/core/improved_pdf_extractor.py`) -/

/-- The `arial_char_widths` table; `.get(char, 556)` is the Python default. -/
def arialCharWidth (c : Char) : ℕ :=
  if c = 'A' then 667 else if c = 'B' then 667 else if c = 'C' then 722
  else if c = 'D' then 722 else if c = 'E' then 667 else if c = 'F' then 611
  else if c = 'G' then 778 else if c = 'H' then 722 else if c = 'I' then 278
  else if c = 'J' then 500 else if c = 'K' then 667 else if c = 'L' then 556
  else if c = 'M' then 833 else if c = 'N' then 722 else if c = 'O' then 778
  else if c = 'P' then 667 else if c = 'Q' then 778 else if c = 'R' then 722
  else if c = 'S' then 667 else if c = 'T' then 611 else if c = 'U' then 722
  else if c = 'V' then 667 else if c = 'W' then 944 else if c = 'X' then 667
  else if c = 'Y' then 667 else if c = 'Z' then 611
  else if c = 'a' then 556 else if c = 'b' then 556 else if c = 'c' then 500
  else if c = 'd' then 556 else if c = 'e' then 556 else if c = 'f' then 278
  else if c = 'g' then 556 else if c = 'h' then 556 else if c = 'i' then 222
  else if c = 'j' then 222 else if c = 'k' then 500 else if c = 'l' then 222
  else if c = 'm' then 833 else if c = 'n' then 556 else if c = 'o' then 556
  else if c = 'p' then 556 else if c = 'q' then 556 else if c = 'r' then 333
  else if c = 's' then 500 else if c = 't' then 278 else if c = 'u' then 556
  else if c = 'v' then 500 else if c = 'w' then 722 else if c = 'x' then 500
  else if c = 'y' then 500 else if c = 'z' then 500
  else if c = ' ' then 278 else if c = '.' then 278 else if c = ',' then 278
  else if c = ':' then 278 else if c = ';' then 278 else if c = '!' then 333
  else if c = '?' then 556 else if c = '"' then 355 else if c = '\'' then 191
  else if c = '(' then 333 else if c = ')' then 333 else if c = '[' then 278
  else if c = ']' then 278 else if c = Char.ofNat 123 then 334
  else if c = Char.ofNat 125 then 334 else if c = '-' then 333
  else if c = '_' then 556 else if c = '=' then 584 else if c = '+' then 584
  else if c = '*' then 389 else if c = '/' then 278 else if c = '\\' then 278
  else if c = '|' then 260 else if c = '&' then 667 else if c = '%' then 889
  else if c = '$' then 556 else if c = '#' then 556 else if c = '@' then 1015
  else if c = '^' then 469 else if c = '~' then 584 else if c = '`' then 333
  else if c = '0' then 556 else if c = '1' then 556 else if c = '2' then 556
  else if c = '3' then 556 else if c = '4' then 556 else if c = '5' then 556
  else if c = '6' then 556 else if c = '7' then 556 else if c = '8' then 556
  else if c = '9' then 556
  else 556

/-- `get_char_width`: `(font_units / 1000.0) * font_size`. -/
def getCharWidth (c : Char) (font_size : ℚ) : ℚ :=
  ((arialCharWidth c : ℚ) / 1000) * font_size

/-! ## `ImprovedPDFExtractor.map_chord_to_verse_position` -/

/-- The character-scanning loop of `map_chord_to_verse_position`:
`current_pixel` starts at the verse span start, each character advances it
by its Arial width, and the loop stops at the first character whose center
`current_pixel + char_width/2` is at or past the target pixel. -/
def mapPosLoop (target font_size : ℚ) : List Char → ℚ → ℕ → ℕ
  | [], _, char_position => char_position
  | c :: rest, current_pixel, i =>
    let w := getCharWidth c font_size
    if target ≤ current_pixel + w / 2 then i
    else mapPosLoop target font_size rest (current_pixel + w) (i + 1)

/-- `map_chord_to_verse_position` from `improved_pdf_extractor.py`.
The `chord_span_*` arguments are part of the Python signature but unused
by the body, exactly as in the source. -/
def mapChordToVersePosition (chord_pixel_x chord_span_start chord_span_width : ℚ)
    (verse_text : List Char) (verse_span_start verse_span_width font_size : ℚ) : ℕ :=
  if verse_span_width = 0 then 0
  else
    min (mapPosLoop
          (max verse_span_start (min chord_pixel_x (verse_span_start + verse_span_width)))
          font_size verse_text verse_span_start 0)
        verse_text.length

/-! Spec-side definitions for claim C1, following the spec's words:
"the index returned is the character position whose visual center is first
reached at or past the target pixel, clamped to [0, len(text)]", where the
visual center of character `i` is the cumulative width of the characters
before it plus half its own width, measured from the lyric span start. -/

/-- Sum of Arial character widths of a character list. -/
def widthSum (font_size : ℚ) (l : List Char) : ℚ :=
  (l.map (fun c => getCharWidth c font_size)).sum

/-- Modelled from the spec: the visual center of character `i` of `t`. -/
def visualCenter (t : List Char) (start font_size : ℚ) (i : ℕ) : ℚ :=
  start + widthSum font_size (t.take i) + getCharWidth (t.getD i ' ') font_size / 2

/-- Modelled from the spec: index of the first character of `t` whose
visual center is at or past `target`, defaulting to `t.length`, clamped
to `[0, t.length]`. -/
def specCharIndex (t : List Char) (start font_size target : ℚ) : ℕ :=
  min
    (match (List.range t.length).find?
        (fun i => decide (target ≤ visualCenter t start font_size i)) with
     | some i => i
     | none => t.length)
    t.length

/-! ## Chord canonicalization
`_normalize_merged_italian_chord_in_extractor` (`improved_pdf_extractor.py`)
and `ChordDetector._normalize_chord` (`chord_detector.py`) -/

/-- The `for root in italian_roots` loop body of
`_normalize_merged_italian_chord_in_extractor`; a root whose remainder
matches no branch falls through to the next root, and reaching the end of
the list returns the chord unchanged. -/
def normalizeMergedItalianGo (chord : String) : List String → String
  | [] => chord
  | root :: roots =>
    if pyStartsWith chord root then
      let remaining := pyDrop chord (pyLen root)
      if remaining = "" then chord
      else if remaining = "m" then root ++ " m"
      else if pyStartsWith remaining "m" ∧ 1 < pyLen remaining then
        root ++ " m " ++ pyDrop remaining 1
      else if remaining ∈ ["7", "9", "6", "4", "2", "11", "13"] then
        root ++ " " ++ remaining
      else if remaining ∈ ["maj7", "dim", "aug", "sus4", "sus2"] then
        root ++ " " ++ remaining
      else normalizeMergedItalianGo chord roots
    else normalizeMergedItalianGo chord roots

/-- `_normalize_merged_italian_chord_in_extractor`. -/
def normalizeMergedItalianChord (chord : String) : String :=
  if chord = "" then chord
  else normalizeMergedItalianGo (pyStrip chord) ["Do", "Re", "Mi", "Fa", "Sol", "La", "Si"]

/-- `ChordDetector._normalize_chord`: remove all spaces, then apply the
language profile's `chord_normalization` replacement rules in order. -/
def normalizeChord (rules : List (String × String)) (chord : String) : String :=
  if chord = "" then ""
  else rules.foldl (fun acc r => pyReplace acc r.1 r.2) (pyReplace chord " " "")

/-! ## Chord-line grouping by Y position
`_combine_chord_lines_by_y_position` and `_merge_chord_lines_at_same_y`
(`improved_pdf_extractor.py`) -/

/-- A chord-line dictionary as built by the extractor.  The `spans` payload
is never inspected by the grouping code, so its element type is a
parameter. -/
structure ChordLineRec (σ : Type) where
  text : String
  text_content : String
  x_start : ℚ
  x_end : ℚ
  width : ℚ
  y : ℚ
  font_size : ℚ
  color : ℤ
  is_pink : Bool
  font_name : String
  spans : List σ
deriving DecidableEq

/-- One step of the `y_groups` bucketing: find the first existing key
within 1.0 of the line's y (Python dict preserves insertion order) and
append to that bucket, else create a new bucket at the end. -/
def addLineToGroups {σ : Type} : List (ℚ × List (ChordLineRec σ)) → ChordLineRec σ →
    List (ℚ × List (ChordLineRec σ))
  | [], r => [(r.y, [r])]
  | (k, ls) :: rest, r =>
    if |r.y - k| < 1 then (k, ls ++ [r]) :: rest
    else (k, ls) :: addLineToGroups rest r

/-- The `y_groups` dictionary after inserting every chord line in order. -/
def buildYGroups {σ : Type} (chord_lines : List (ChordLineRec σ)) :
    List (ℚ × List (ChordLineRec σ)) :=
  chord_lines.foldl addLineToGroups []

/-- The `combined_text` accumulation of `_merge_chord_lines_at_same_y`:
walk the x-sorted lines, padding with `max(0, int((x_start - current_x)/6))`
spaces before each stripped text. -/
def mergeTextLoop {σ : Type} : List (ChordLineRec σ) → String → ℚ → String
  | [], acc, _ => acc
  | l :: rest, acc, current_x =>
    let spaces := ((max 0 (pyTrunc ((l.x_start - current_x) / 6))).toNat)
    mergeTextLoop rest (acc ++ ⟨List.replicate spaces ' '⟩ ++ pyStrip l.text) l.x_end

/-- `_merge_chord_lines_at_same_y`: sort by `x_start` (stably), take the
union bounding box, build the padded combined text, and copy the metadata
of the first sorted line.  The empty-list case cannot arise (buckets are
never empty); it returns a record whose `y` is still `y_pos`. -/
def mergeChordLinesAtSameY {σ : Type} (chord_lines : List (ChordLineRec σ)) (y_pos : ℚ) :
    ChordLineRec σ :=
  match sortByLe (fun a b => decide (a.x_start ≤ b.x_start)) chord_lines with
  | [] => ⟨"", "", 0, 0, 0, y_pos, 0, 0, false, "", []⟩
  | first :: rest =>
    let sorted_lines := first :: rest
    let min_x := (sorted_lines.map (·.x_start)).foldl min first.x_start
    let max_x := (sorted_lines.map (·.x_end)).foldl max first.x_end
    let combined_text := mergeTextLoop sorted_lines "" min_x
    { text := combined_text
      text_content := pyStrip combined_text
      x_start := min_x
      x_end := max_x
      width := max_x - min_x
      y := y_pos
      font_size := first.font_size
      color := first.color
      is_pink := first.is_pink
      font_name := first.font_name
      spans := sorted_lines.flatMap (·.spans) }

/-- Emission of one `y_groups` bucket: a single line passes through
unchanged, several lines are merged. -/
def combineGroup {σ : Type} : ℚ × List (ChordLineRec σ) → ChordLineRec σ
  | (_, [r]) => r
  | (k, ls) => mergeChordLinesAtSameY ls k

/-- `_combine_chord_lines_by_y_position`. -/
def combineChordLinesByYPosition {σ : Type} (chord_lines : List (ChordLineRec σ)) :
    List (ChordLineRec σ) :=
  match chord_lines with
  | [] => []
  | _ => (buildYGroups chord_lines).map combineGroup

/-! ## Text classification (`src/parser/core/text_classifier.py`)

The dataclasses `PDFTextElement`, `ClassifiedText` and the enum `TextType`
live in the absent `core/models.py`; they are modelled from the spec
(section 3: TextRun and ClassifiedLine) and from their uses in
`text_classifier.py`. -/

/-- Modelled from the spec: a positioned text run (`PDFTextElement` of the
missing `core/models.py`), with the fields the classifier reads. -/
structure PDFTextElement where
  text : String
  x : ℚ
  y : ℚ
  font_size : ℚ
  is_bold : Bool
  is_pink : Bool
deriving DecidableEq

/-- Modelled from the spec: the semantic line types (`TextType` of the
missing `core/models.py`), as used across the sources. -/
inductive TextType where
  | TITLE | SUBTITLE | ROLE_MARKER | CHORD_LINE | INLINE_COMMENT
  | COMMENT | KAPODASTER | VERSE_TEXT | UNKNOWN
deriving DecidableEq

/-- Modelled from the spec: a classified line (`ClassifiedText` of the
missing `core/models.py`): element, assigned type, confidence. -/
structure ClassifiedText where
  element : PDFTextElement
  text_type : TextType
  confidence : ℚ
deriving DecidableEq

/-- `ClassificationRule`: patterns are modelled as decidable predicates on
the stripped text (`pattern.search`). -/
structure ClassificationRule where
  text_type : TextType
  patterns : List (String → Bool)
  font_size_range : ℚ × ℚ
  confidence_boost : ℚ

/-- The configuration fields of the language profile that the classifier
reads, plus the classifier's own positioning constants. -/
structure ClassifierConfig where
  role_markers : List String
  text_font_size_min : ℚ

/-- `TextClassifier.title_position_threshold` (100.0 pixels). -/
def titlePositionThreshold : ℚ := 100

/-- `TextClassifier.role_indent_threshold` (50.0 pixels). -/
def roleIndentThreshold : ℚ := 50

/-- `_calculate_rule_confidence`. -/
def calculateRuleConfidence (element : PDFTextElement) (rule : ClassificationRule) : ℚ :=
  let text := pyStrip element.text
  if ¬ rule.patterns.any (fun p => p text) then 0
  else
    let c : ℚ := 0.5 + rule.confidence_boost
    let c := if rule.font_size_range.1 ≤ element.font_size ∧
        element.font_size ≤ rule.font_size_range.2 then c + 0.2 else c
    let c := if rule.text_type = TextType.TITLE ∧ element.is_bold then c + 0.2 else c
    let c := if rule.text_type = TextType.CHORD_LINE ∧ element.is_pink then c + 0.3 else c
    let c := if rule.text_type = TextType.ROLE_MARKER ∧ pyLen text ≤ 10 then c + 0.2 else c
    let c := if rule.text_type = TextType.TITLE ∧ 5 ≤ pyLen text ∧ pyLen text ≤ 50
      then c + 0.1 else c
    min 1 c

/-- The best-rule fold of `_classify_element`: `confidence > best_confidence`
is strict, so the earliest rule wins ties; the initial best is `(None, 0.0)`. -/
def bestRule (element : PDFTextElement) (rules : List ClassificationRule) :
    Option TextType × ℚ :=
  rules.foldl (fun acc rule =>
    let c := calculateRuleConfidence element rule
    if acc.2 < c then (some rule.text_type, c) else acc) (none, 0)

/-- `_apply_position_adjustments`. -/
def applyPositionAdjustments (cfg : ClassifierConfig) (element : PDFTextElement)
    (text_type : TextType) (confidence : ℚ) : ℚ :=
  let adjusted := confidence
  let adjusted := if text_type = TextType.TITLE then
      (if element.y < titlePositionThreshold then adjusted + 0.2 else adjusted - 0.1)
    else adjusted
  let adjusted := if text_type = TextType.ROLE_MARKER ∧ element.x < roleIndentThreshold
    then adjusted + 0.1 else adjusted
  let adjusted := if text_type = TextType.CHORD_LINE ∧ element.font_size < cfg.text_font_size_min
    then adjusted + 0.1 else adjusted
  min 1 (max 0 adjusted)

/-- `_classify_element`: empty text is Unknown with confidence 0;
otherwise the best rule wins if its confidence is at least 0.3, else the
VerseText/0.5 default; position adjustments are applied to the winner
(a `None` best classification cannot occur when the threshold is met,
since every rule confidence is non-negative and the fold starts at 0). -/
def classifyElement (cfg : ClassifierConfig) (rules : List ClassificationRule)
    (element : PDFTextElement) : ClassifiedText :=
  if pyStrip element.text = "" then ⟨element, TextType.UNKNOWN, 0⟩
  else if (bestRule element rules).2 < 0.3 then
    ⟨element, TextType.VERSE_TEXT,
      applyPositionAdjustments cfg element TextType.VERSE_TEXT 0.5⟩
  else
    ⟨element, (bestRule element rules).1.getD TextType.UNKNOWN,
      applyPositionAdjustments cfg element
        ((bestRule element rules).1.getD TextType.UNKNOWN) (bestRule element rules).2⟩

/-- The character class of the chord-line reclassification regex
`^[A-Ha-h\s\d\*\#b\+\-\(\)]+$` in `_post_process_classifications`. -/
def isChordPatternChar (c : Char) : Bool :=
  ('A' ≤ c ∧ c ≤ 'H') ∨ ('a' ≤ c ∧ c ≤ 'h') ∨ pyIsSpace c ∨ c.isDigit ∨
  c = '*' ∨ c = '#' ∨ c = 'b' ∨ c = '+' ∨ c = '-' ∨ c = '(' ∨ c = ')'

/-- The anchored regex match of `_post_process_classifications`: the whole
(non-empty) string consists of chord-pattern characters. -/
def matchesChordCharPattern (s : String) : Bool :=
  ¬ s.data.isEmpty ∧ s.data.all isChordPatternChar

/-- The per-element corrections of `_post_process_classifications`:
role-marker reclassification first, then the pink chord-line
reclassification on what is still VerseText. -/
def postProcessOne (cfg : ClassifierConfig) (ct : ClassifiedText) : ClassifiedText :=
  let ct :=
    if ct.text_type = TextType.VERSE_TEXT ∧
        cfg.role_markers.any (fun role => pyStartsWith (pyStrip ct.element.text) role) then
      { ct with text_type := TextType.ROLE_MARKER, confidence := 0.8 }
    else ct
  if ct.text_type = TextType.VERSE_TEXT ∧ ct.element.is_pink ∧
      pyLen (pyStrip ct.element.text) < 30 ∧
      matchesChordCharPattern (pyStrip ct.element.text) then
    { ct with text_type := TextType.CHORD_LINE, confidence := 0.7 }
  else ct

/-- The sort key `(element.y, element.x)` used by `classify` and
`_post_process_classifications` (Python `sorted`, stable). -/
def leYX (a b : ClassifiedText) : Bool :=
  decide (a.element.y < b.element.y ∨ (a.element.y = b.element.y ∧ a.element.x ≤ b.element.x))

/-- `_post_process_classifications`. -/
def postProcessClassifications (cfg : ClassifierConfig) (l : List ClassifiedText) :
    List ClassifiedText :=
  (sortByLe leYX l).map (postProcessOne cfg)

/-- The sort key `(e.y, e.x)` on raw elements used by `classify`. -/
def leYXElem (a b : PDFTextElement) : Bool :=
  decide (a.y < b.y ∨ (a.y = b.y ∧ a.x ≤ b.x))

/-- The classification pipeline of `TextClassifier.classify` restricted to
the classified elements it produces: sort by position, classify each
element, then post-process. -/
def classifyElements (cfg : ClassifierConfig) (rules : List ClassificationRule)
    (elements : List PDFTextElement) : List ClassifiedText :=
  postProcessClassifications cfg
    ((sortByLe leYXElem elements).map (classifyElement cfg rules))

/-! ## Verse building (`src/parser/core/verse_builder.py`,
`_group_elements_into_verses`) -/

/-- `VerseGroup` of `verse_builder.py`. -/
structure VerseGroup where
  role : String
  elements : List ClassifiedText
  start_y : ℚ
  end_y : ℚ
deriving DecidableEq

/-- The verse-builder configuration fields used by the grouping logic;
`max_line_distance` comes from the language profile's
`verse_continuation_rules` (default 30.0), and `role_markers` is the
profile's role-marker list used by `_normalize_role_marker`. -/
structure VerseBuilderConfig where
  role_markers : List String
  max_line_distance : ℚ

/-- Python `role_text.rstrip('.:')`. -/
def pyRstripDotColon (s : String) : String :=
  ⟨(s.data.reverse.dropWhile (fun c => c == '.' || c == ':')).reverse⟩

/-- Python `role.rstrip('.')`. -/
def pyRstripDot (s : String) : String :=
  ⟨(s.data.reverse.dropWhile (fun c => c == '.')).reverse⟩

/-- `_normalize_role_marker`: strip trailing `.`/`:` and whitespace, then
return the configured role it matches (with or without its trailing dot),
else the normalized text itself. -/
def normalizeRoleMarker (cfg : VerseBuilderConfig) (role_text : String) : String :=
  let normalized := pyStrip (pyRstripDotColon role_text)
  match cfg.role_markers.find? (fun role =>
      normalized = role ∨ normalized = pyRstripDot role) with
  | some role => role
  | none => normalized

/-- `_should_add_to_current_group`: an empty group always accepts; beyond
the maximum vertical distance from the group's last element the answer is
False; every remaining branch of the Python chain returns True. -/
def shouldAddToCurrentGroup (cfg : VerseBuilderConfig) (element : ClassifiedText)
    (current_group : VerseGroup) : Bool :=
  match current_group.elements.getLast? with
  | none => true
  | some last =>
    if cfg.max_line_distance < |element.element.y - last.element.y| then false
    else true

/-- The loop state of `_group_elements_into_verses`. -/
structure GroupState where
  groups : List VerseGroup
  current : Option VerseGroup
  current_role : String

/-- One iteration of the `for element in elements` loop of
`_group_elements_into_verses`. -/
def groupStep (cfg : VerseBuilderConfig) (s : GroupState) (element : ClassifiedText) :
    GroupState :=
  if element.text_type = TextType.ROLE_MARKER then
    let groups := match s.current with
      | some g => if g.elements ≠ [] then s.groups ++ [g] else s.groups
      | none => s.groups
    let role := normalizeRoleMarker cfg (pyStrip element.element.text)
    { groups := groups
      current := some ⟨role, [], element.element.y, element.element.y⟩
      current_role := role }
  else if element.text_type = TextType.VERSE_TEXT ∨
      element.text_type = TextType.INLINE_COMMENT then
    let cur := match s.current with
      | none => (⟨"", [], element.element.y, element.element.y⟩ : VerseGroup)
      | some g => g
    if shouldAddToCurrentGroup cfg element cur then
      { s with current := some { cur with
          elements := cur.elements ++ [element]
          end_y := max cur.end_y element.element.y } }
    else
      let groups := if cur.elements ≠ [] then s.groups ++ [cur] else s.groups
      { groups := groups
        current := some ⟨s.current_role, [element], element.element.y, element.element.y⟩
        current_role := s.current_role }
  else s

/-- The final `if current_group and current_group.elements` emission. -/
def groupFinish (s : GroupState) : List VerseGroup :=
  s.groups ++ (match s.current with
    | some g => if g.elements ≠ [] then [g] else []
    | none => [])

/-- `_group_elements_into_verses`. -/
def groupElementsIntoVerses (cfg : VerseBuilderConfig) (elements : List ClassifiedText) :
    List VerseGroup :=
  groupFinish (elements.foldl (groupStep cfg) ⟨[], none, ""⟩)

/-- The element types the verse-builder grouping keeps. -/
def keptByGrouping (element : ClassifiedText) : Bool :=
  element.text_type = TextType.VERSE_TEXT ∨ element.text_type = TextType.INLINE_COMMENT

/-- All elements of a list of verse groups, in order. -/
def joinedElements (gs : List VerseGroup) : List ClassifiedText :=
  (gs.map (·.elements)).flatten

/-- The first group that the state will eventually emit has role `r` and
first element `x`: either the head of the already-emitted groups, or the
(non-empty) current group when nothing has been emitted yet. -/
def FirstGroupIs (s : GroupState) (r : String) (x : ClassifiedText) : Prop :=
  (∃ g gs, s.groups = g :: gs ∧ g.role = r ∧ g.elements.head? = some x) ∨
  (s.groups = [] ∧ ∃ g, s.current = some g ∧ g.role = r ∧ g.elements.head? = some x)

/-- Concrete verse-builder configuration used by witnesses. -/
def cfgVB : VerseBuilderConfig := ⟨["K.", "Z."], 30⟩

/-- Concrete VerseText element used by witnesses. -/
def ctV : ClassifiedText := ⟨⟨"Pjevajmo svi", 60, 120, 11, false, false⟩, TextType.VERSE_TEXT, 0.5⟩

/-! ## Span-based chord positioning
(`improved_universal_parser.py`, `_find_chords_with_span_positioning`) -/

/-- Modelled from the spec: a positioned chord (`Chord` of the missing
`core/models.py`): canonical chord text, character offset, source pixel x. -/
structure Chord where
  chord : String
  position : ℕ
  pixel_x : ℚ
deriving DecidableEq

/-- A text-line dictionary as consumed by the parser (`text`,
`text_content`, position and font fields). -/
structure TextLineRec where
  text : String
  text_content : String
  x_start : ℚ
  width : ℚ
  y : ℚ
  font_size : ℚ
deriving DecidableEq

/-- One step of the best-chord-line fold of
`_find_chords_with_span_positioning`: a line strictly above the text line
replaces the current best exactly when its distance is strictly smaller
(`distance < min_distance`, with `min_distance = ∞` while best is None). -/
def selectStep {σ : Type} (text_y : ℚ) :
    Option (ChordLineRec σ) → ChordLineRec σ → Option (ChordLineRec σ)
  | none, cl => if cl.y < text_y then some cl else none
  | some b, cl =>
    if cl.y < text_y then
      (if text_y - cl.y < text_y - b.y then some cl else some b)
    else some b

/-- The best-chord-line fold: among chord lines strictly above the text
line, keep the first one of minimal distance. -/
def selectBestChordLine {σ : Type} (text_y : ℚ) (chord_lines : List (ChordLineRec σ)) :
    Option (ChordLineRec σ) :=
  chord_lines.foldl (selectStep text_y) none

/-- Stable sort of chords by `position` (Python `sorted(key=lambda x: x.position)`). -/
def sortChordsByPosition (chords : List Chord) : List Chord :=
  sortByLe (fun a b => decide (a.position ≤ b.position)) chords

/-- `_find_chords_with_span_positioning`.  The collaborator
`find_chord_positions_in_span` (language-specific chord tokenization) is
passed in as `findPos : text → x_start → width → [(chord, pixel_x)]`. -/
def findChordsWithSpanPositioning {σ : Type}
    (findPos : String → ℚ → ℚ → List (String × ℚ))
    (text_line : TextLineRec) (chord_lines : List (ChordLineRec σ)) : List Chord :=
  match selectBestChordLine text_line.y chord_lines with
  | none => []
  | some best =>
    if 18 < text_line.y - best.y then []
    else
      sortChordsByPosition
        ((findPos best.text best.x_start best.width).map (fun p =>
          ⟨p.1,
           mapChordToVersePosition p.2 best.x_start best.width
             text_line.text_content.data text_line.x_start text_line.width
             text_line.font_size,
           p.2⟩))

/-! ## ChordPro chord insertion
(`improved_universal_parser.py`, `_position_chords_in_lyrics`) -/

/-- The `f"[{chord.chord}]"` bracket group. -/
def bracketChord (name : String) : List Char :=
  '[' :: name.data ++ [']']

/-- Python `sep.join(strings)` on character lists. -/
def joinSepChars (sep : List Char) : List String → List Char
  | [] => []
  | [n] => n.data
  | n :: ns => n.data ++ sep ++ joinSepChars sep ns

/-- The `for chord in sorted_chords` loop of `_position_chords_in_lyrics`,
with the trailing `if lyric_pos < len` flush folded into the base case. -/
def posChordsLoop (t : List Char) : List Chord → List Char → ℕ → List Char
  | [], result, lyric_pos =>
    if lyric_pos < t.length then result ++ t.drop lyric_pos else result
  | c :: cs, result, lyric_pos =>
    if t.length ≤ c.position then
      let result := if lyric_pos < t.length then result ++ t.drop lyric_pos else result
      posChordsLoop t cs (result ++ bracketChord c.chord) t.length
    else
      if lyric_pos < c.position then
        posChordsLoop t cs
          ((result ++ (t.drop lyric_pos).take (c.position - lyric_pos)) ++
            bracketChord c.chord)
          c.position
      else
        posChordsLoop t cs (result ++ bracketChord c.chord) lyric_pos

/-- `_position_chords_in_lyrics`. -/
def positionChordsInLyrics (chords : List Chord) (lyric_text : String) : String :=
  if chords = [] ∨ pyStrip lyric_text = "" then
    if chords ≠ [] then
      ⟨'[' :: joinSepChars ("][".data) (chords.map (·.chord)) ++ [']']⟩
    else lyric_text
  else
    ⟨posChordsLoop lyric_text.data (sortChordsByPosition chords) [] 0⟩

/-- Modelled from the spec reading of the output shape: insert each
`[name]` group at its clamped character position (positions at or past the
end of the text are clamped to the end, so those chords are appended after
the text), consuming the text from left to right. -/
def specInsert (t : List Char) : ℕ → List (String × ℕ) → List Char
  | i, [] => t.drop i
  | i, (n, p) :: cs =>
    (t.drop i).take (min p t.length - i) ++ bracketChord n ++
      specInsert t (max i (min p t.length)) cs

/-- `specInsert` with every inserted bracket group deleted: only the text
slices remain. -/
def specText (t : List Char) : ℕ → List (String × ℕ) → List Char
  | i, [] => t.drop i
  | i, (_, p) :: cs =>
    (t.drop i).take (min p t.length - i) ++ specText t (max i (min p t.length)) cs

/-! ## Verse parsing loop
(`improved_universal_parser.py`, `_parse_verses_with_span_positioning`) -/

/-- Modelled from the spec: a verse line (`VerseLine` of the missing
`core/models.py`) as constructed by the parser: text, positioned chords,
and the original unprocessed line (`line_type` is always None here and is
omitted). -/
structure VerseLine where
  text : String
  chords : List Chord
  original_line : String
deriving DecidableEq

/-- Modelled from the spec: a verse (`Verse` of the missing
`core/models.py`): role label, ordered lines, and kind
(`"verse"` or `"comment"`). -/
structure Verse where
  role : String
  lines : List VerseLine
  verse_type : String
deriving DecidableEq

/-- `_extract_role_marker`: first role marker (longest first, Python
`sorted(key=len, reverse=True)` is stable) that the stripped line starts
with, else `""`. -/
def extractRoleMarker (role_markers : List String) (line : String) : String :=
  match (sortByLe (fun a b : String => decide (pyLen b ≤ pyLen a)) role_markers).find?
      (fun role => pyStartsWith (pyStrip line) role) with
  | some role => role
  | none => ""

/-- `_is_inline_comment`: `'C:' in text.strip()`. -/
def isInlineComment (text : String) : Bool :=
  containsSub (pyStrip text).data "C:".data

/-- `_is_asterisk_marker`. -/
def isAsteriskMarker (text : String) : Bool :=
  pyStrip text = "*" || pyStrip text = "**"

/-- `_format_inline_comment`. -/
def formatInlineComment (text : String) : String :=
  let ct := pyStrip text
  let ct :=
    if pyStartsWith ct "(" ∧ pyEndsWith ct ")" then
      let inner := pyStrip (pyDropRight (pyDrop ct 1) 1)
      let inner := if pyStartsWith inner "C:" then pyStrip (pyDrop inner 2) else inner
      "(" ++ inner ++ ")"
    else if pyStartsWith ct "C:" then pyStrip (pyDrop ct 2)
    else ct
  "\x7bcomment: " ++ ct ++ "\x7d"

/-- The loop state of `_parse_verses_with_span_positioning`. -/
structure PState where
  verses : List Verse
  current_verse_lines : List VerseLine
  current_role : String
  processed_indices : List ℕ

/-- The inner `while j < len(...)` scan that collects continuation lines
after a role marker on its own line, returning the collected verse lines
and the processed indices; it stops at a role marker, inline comment, or
asterisk marker (the `.get('text_content', ...)` default is unreachable
for extractor-built records, which always carry `text_content`). -/
def contScan {σ : Type} (role_markers : List String)
    (findPos : String → ℚ → ℚ → List (String × ℚ))
    (chord_lines : List (ChordLineRec σ)) (lines : List TextLineRec) :
    ℕ → ℕ → List VerseLine × List ℕ
  | _, 0 => ([], [])
  | j, fuel + 1 =>
    match lines[j]? with
    | none => ([], [])
    | some nd =>
      if pyStrip nd.text = "" then
        contScan role_markers findPos chord_lines lines (j + 1) fuel
      else if extractRoleMarker role_markers nd.text ≠ "" then ([], [])
      else if isInlineComment nd.text then ([], [])
      else if isAsteriskMarker nd.text then ([], [])
      else
        let chords := findChordsWithSpanPositioning findPos nd chord_lines
        let res := contScan role_markers findPos chord_lines lines (j + 1) fuel
        (⟨nd.text_content, chords, nd.text⟩ :: res.1, j :: res.2)

/-- The inner scan of the multi-line asterisk comment branch: collect the
stripped continuation texts until an empty line, role marker, or another
asterisk marker. -/
def astScan (role_markers : List String) (lines : List TextLineRec) :
    ℕ → ℕ → List String × List ℕ
  | _, 0 => ([], [])
  | j, fuel + 1 =>
    match lines[j]? with
    | none => ([], [])
    | some nl =>
      let nt := pyStrip nl.text
      if nt = "" ∨ extractRoleMarker role_markers nt ≠ "" ∨ isAsteriskMarker nt then
        ([], [])
      else
        let res := astScan role_markers lines (j + 1) fuel
        (nt :: res.1, j :: res.2)

/-- The `# Add final verse` emission after the loop. -/
def parseFinal (s : PState) : List Verse :=
  s.verses ++
    (if s.current_verse_lines ≠ [] ∧ s.current_role ≠ "" then
      [⟨s.current_role, s.current_verse_lines, "verse"⟩]
    else [])

/-- The main `while i < len(text_lines_sorted)` loop of
`_parse_verses_with_span_positioning`, fuelled by the number of remaining
indices.  `customization` is the optional `customize_verse_text` hook. -/
def parseLoop {σ : Type} (role_markers : List String)
    (findPos : String → ℚ → ℚ → List (String × ℚ))
    (customization : Option (String → TextLineRec → String))
    (chord_lines : List (ChordLineRec σ)) (lines : List TextLineRec) :
    ℕ → PState → ℕ → List Verse
  | _, s, 0 => parseFinal s
  | i, s, fuel + 1 =>
    match lines[i]? with
    | none => parseFinal s
    | some d =>
      if i ∈ s.processed_indices then
        parseLoop role_markers findPos customization chord_lines lines (i + 1) s fuel
      else if pyStrip d.text = "" then
        parseLoop role_markers findPos customization chord_lines lines (i + 1) s fuel
      else
        let rm := extractRoleMarker role_markers d.text
        if rm ≠ "" then
          let verses :=
            if s.current_verse_lines ≠ [] ∧ s.current_role ≠ "" then
              s.verses ++ [⟨s.current_role, s.current_verse_lines, "verse"⟩]
            else s.verses
          let processed := i :: s.processed_indices
          if pyLen (pyStrip rm) + 2 < pyLen (pyStrip d.text) then
            let chords := findChordsWithSpanPositioning findPos d chord_lines
            parseLoop role_markers findPos customization chord_lines lines (i + 1)
              ⟨verses, [⟨d.text_content, chords, d.text⟩], rm, processed⟩ fuel
          else
            let sc := contScan role_markers findPos chord_lines lines (i + 1) lines.length
            parseLoop role_markers findPos customization chord_lines lines (i + 1)
              ⟨verses, sc.1, rm, sc.2 ++ processed⟩ fuel
        else if isInlineComment d.text then
          let verses :=
            if s.current_verse_lines ≠ [] ∧ s.current_role ≠ "" then
              s.verses ++ [⟨s.current_role, s.current_verse_lines, "verse"⟩]
            else s.verses
          let cvl := if s.current_verse_lines ≠ [] ∧ s.current_role ≠ ""
            then [] else s.current_verse_lines
          let role := if s.current_verse_lines ≠ [] ∧ s.current_role ≠ ""
            then "" else s.current_role
          let fc := formatInlineComment d.text
          parseLoop role_markers findPos customization chord_lines lines (i + 1)
            ⟨verses ++ [⟨"", [⟨"\n" ++ fc ++ "\n", [], d.text⟩], "comment"⟩],
             cvl, role, i :: s.processed_indices⟩ fuel
        else if isAsteriskMarker d.text then
          let verses :=
            if s.current_verse_lines ≠ [] ∧ s.current_role ≠ "" then
              s.verses ++ [⟨s.current_role, s.current_verse_lines, "verse"⟩]
            else s.verses
          let cvl := if s.current_verse_lines ≠ [] ∧ s.current_role ≠ ""
            then [] else s.current_verse_lines
          let role := if s.current_verse_lines ≠ [] ∧ s.current_role ≠ ""
            then "" else s.current_role
          let asc := astScan role_markers lines (i + 1) lines.length
          let combined :=
            if asc.1 ≠ [] then
              pyStrip d.text ++ " " ++ (⟨joinSepChars [' '] asc.1⟩ : String)
            else pyStrip d.text
          let fc := "\x7bcomment: " ++ combined ++ "\x7d"
          parseLoop role_markers findPos customization chord_lines lines (i + 1)
            ⟨verses ++ [⟨"", [⟨"\n" ++ fc ++ "\n", [], d.text⟩], "comment"⟩],
             cvl, role, i :: (asc.2 ++ s.processed_indices)⟩ fuel
        else if s.current_role ≠ "" then
          let clean :=
            match customization with
            | some f => f d.text d
            | none =>
              let c := pyStrip d.text
              if pyStartsWith c "\"\"" then
                pyStrip (pyReplace (pyStrip (pyReplace c "\"\"" "")) "\"" "")
              else c
          if clean ≠ "" then
            let chords := findChordsWithSpanPositioning findPos d chord_lines
            parseLoop role_markers findPos customization chord_lines lines (i + 1)
              ⟨s.verses, s.current_verse_lines ++ [⟨clean, chords, d.text⟩],
               s.current_role, i :: s.processed_indices⟩ fuel
          else
            parseLoop role_markers findPos customization chord_lines lines (i + 1) s fuel
        else
          parseLoop role_markers findPos customization chord_lines lines (i + 1) s fuel

/-- `_parse_verses_with_span_positioning`: sort the text lines by `y`
(stably) and run the loop from index 0 with an empty state. -/
def parseVersesWithSpanPositioning {σ : Type} (role_markers : List String)
    (findPos : String → ℚ → ℚ → List (String × ℚ))
    (customization : Option (String → TextLineRec → String))
    (text_lines : List TextLineRec) (chord_lines : List (ChordLineRec σ)) : List Verse :=
  let text_lines_sorted := sortByLe (fun a b : TextLineRec => decide (a.y ≤ b.y)) text_lines
  parseLoop role_markers findPos customization chord_lines text_lines_sorted
    0 ⟨[], [], "", []⟩ text_lines_sorted.length

/-- Croatian role markers (`languages/croatian/config.py`). -/
def hrRoles : List String := ["K.+Z.", "K.+P.", "K.", "Z.", "P.", "D."]

/-- A text line holding only the role marker "K.". -/
def kLine : TextLineRec := ⟨"K.", "K.", 50, 12, 10, 11⟩

/-- A text line holding only the role marker "Z.", below `kLine`. -/
def zLine : TextLineRec := ⟨"Z.", "Z.", 50, 12, 25, 11⟩

/-- A verse-text line below `zLine`. -/
def tLine : TextLineRec := ⟨"Pjevajmo svi", "Pjevajmo svi", 50, 120, 40, 11⟩

/-! ## Theorems -/

theorem widthSum_take_succ (fs : ℚ) (t : List Char) (k : ℕ) (hk : k < t.length) :
    widthSum fs (t.take (k + 1)) = widthSum fs (t.take k) + getCharWidth (t.getD k ' ') fs := by
  have h1 : t.take (k + 1) = t.take k ++ [t[k]] := by
    rw [List.take_succ, List.getElem?_eq_getElem hk]
    rfl
  rw [h1, widthSum, widthSum, List.map_append, List.sum_append,
    List.getD_eq_getElem t ' ' hk]
  simp

theorem mapPosLoop_eq_find (t : List Char) (target fs start : ℚ) :
    ∀ n k, k + n = t.length →
    mapPosLoop target fs (t.drop k) (start + widthSum fs (t.take k)) k =
      (match (List.range' k n).find?
          (fun i => decide (target ≤ visualCenter t start fs i)) with
       | some i => i
       | none => t.length) := by
  intro n
  induction n with
  | zero =>
    intro k hk
    simp only [Nat.add_zero] at hk
    rw [hk, List.drop_length]
    simp [mapPosLoop]
  | succ n ih =>
    intro k hk
    have hklt : k < t.length := by omega
    have hdrop : t.drop k = t[k] :: t.drop (k + 1) := List.drop_eq_getElem_cons hklt
    rw [hdrop]
    have hgetD : t.getD k ' ' = t[k] := List.getD_eq_getElem t ' ' hklt
    have hcenter : visualCenter t start fs k =
        (start + widthSum fs (t.take k)) + getCharWidth t[k] fs / 2 := by
      rw [visualCenter, hgetD]
    rw [List.range'_succ]
    by_cases hc : target ≤ visualCenter t start fs k
    · rw [List.find?_cons_of_pos _ (by simpa using hc)]
      simp only [mapPosLoop]
      rw [if_pos (by rw [← hcenter]; exact hc)]
    · rw [List.find?_cons_of_neg _ (by simpa using hc)]
      simp only [mapPosLoop]
      rw [if_neg (by rw [← hcenter]; exact hc)]
      have hsum : (start + widthSum fs (t.take k)) + getCharWidth t[k] fs =
          start + widthSum fs (t.take (k + 1)) := by
        rw [widthSum_take_succ fs t k hklt, hgetD]; ring
      rw [hsum]
      exact ih (k + 1) (by omega)

/-- C1: with a positive lyric span width, `map_chord_to_verse_position`
clamps the chord pixel x into the lyric span `[start, start+width]` and
returns the index of the first character of the lyric text whose visual
center (cumulative Arial widths from the span start plus half the
character's own width) is at or past the clamped pixel, the result being
clamped to `[0, len(text)]`. -/
theorem map_chord_to_verse_position_correct
    (chord_pixel_x chord_span_start chord_span_width : ℚ) (verse_text : List Char)
    (verse_span_start verse_span_width font_size : ℚ)
    (h : 0 < verse_span_width) :
    mapChordToVersePosition chord_pixel_x chord_span_start chord_span_width
        verse_text verse_span_start verse_span_width font_size =
      specCharIndex verse_text verse_span_start font_size
        (max verse_span_start (min chord_pixel_x (verse_span_start + verse_span_width))) := by
  have key := mapPosLoop_eq_find verse_text
    (max verse_span_start (min chord_pixel_x (verse_span_start + verse_span_width)))
    font_size verse_span_start verse_text.length 0 (by omega)
  simp only [List.drop_zero, List.take_zero] at key
  rw [show widthSum font_size ([] : List Char) = 0 from by simp [widthSum], add_zero] at key
  rw [mapChordToVersePosition, if_neg (by exact ne_of_gt h), specCharIndex, key,
    List.range_eq_range']

section GroupingIdempotence

variable {σ : Type}

theorem addLineToGroups_of_far (r : ChordLineRec σ) :
    ∀ gs : List (ℚ × List (ChordLineRec σ)),
      (∀ p ∈ gs, ¬ |r.y - p.1| < 1) →
      addLineToGroups gs r = gs ++ [(r.y, [r])] := by
  intro gs
  induction gs with
  | nil => intro _; rfl
  | cons p rest ih =>
    intro h
    obtain ⟨k, ls⟩ := p
    rw [addLineToGroups, if_neg (h (k, ls) (by simp))]
    rw [ih (fun q hq => h q (by simp [hq]))]
    simp

theorem addLineToGroups_keys (r : ChordLineRec σ) :
    ∀ gs : List (ℚ × List (ChordLineRec σ)),
      (addLineToGroups gs r).map Prod.fst = gs.map Prod.fst ∨
      ((addLineToGroups gs r).map Prod.fst = gs.map Prod.fst ++ [r.y] ∧
        ∀ p ∈ gs, 1 ≤ |r.y - p.1|) := by
  intro gs
  induction gs with
  | nil => right; simp [addLineToGroups]
  | cons p rest ih =>
    obtain ⟨k, ls⟩ := p
    by_cases hk : |r.y - k| < 1
    · left; rw [addLineToGroups, if_pos hk]; simp
    · rw [addLineToGroups, if_neg hk]
      rcases ih with h | ⟨h1, h2⟩
      · left; simp [h]
      · right
        constructor
        · simp [h1]
        · intro q hq
          rcases List.mem_cons.mp hq with hq | hq
          · rw [hq]; exact le_of_not_lt hk
          · exact h2 q hq

theorem pairwise_keys_addLineToGroups (r : ChordLineRec σ)
    (gs : List (ℚ × List (ChordLineRec σ)))
    (h : (gs.map Prod.fst).Pairwise (fun a b : ℚ => 1 ≤ |a - b|)) :
    ((addLineToGroups gs r).map Prod.fst).Pairwise (fun a b : ℚ => 1 ≤ |a - b|) := by
  rcases addLineToGroups_keys r gs with hk | ⟨hk, hfar⟩
  · rw [hk]; exact h
  · rw [hk, List.pairwise_append]
    refine ⟨h, List.pairwise_singleton _ _, ?_⟩
    intro a ha b hb
    rw [List.mem_singleton] at hb
    obtain ⟨p, hp, hpa⟩ := List.mem_map.mp ha
    rw [hb, ← hpa, abs_sub_comm]
    exact hfar p hp

theorem pairwise_keys_buildAux :
    ∀ (l : List (ChordLineRec σ)) (gs : List (ℚ × List (ChordLineRec σ))),
      (gs.map Prod.fst).Pairwise (fun a b : ℚ => 1 ≤ |a - b|) →
      ((l.foldl addLineToGroups gs).map Prod.fst).Pairwise (fun a b : ℚ => 1 ≤ |a - b|) := by
  intro l
  induction l with
  | nil => intro gs h; exact h
  | cons r rest ih =>
    intro gs h
    exact ih _ (pairwise_keys_addLineToGroups r gs h)

/-- Every bucket of `y_groups` is non-empty and its first line's `y` is
the bucket key. -/
def BucketInv (gs : List (ℚ × List (ChordLineRec σ))) : Prop :=
  ∀ p ∈ gs, ∃ (r : ChordLineRec σ) (rest : List (ChordLineRec σ)),
    p.2 = r :: rest ∧ r.y = p.1

theorem bucketInv_addLineToGroups (r : ChordLineRec σ) :
    ∀ gs : List (ℚ × List (ChordLineRec σ)),
      BucketInv gs → BucketInv (addLineToGroups gs r) := by
  intro gs
  induction gs with
  | nil =>
    intro _ p hp
    rw [addLineToGroups] at hp
    rcases List.mem_singleton.mp hp with rfl
    exact ⟨r, [], rfl, rfl⟩
  | cons q rest ih =>
    intro h p hp
    obtain ⟨k, ls⟩ := q
    by_cases hk : |r.y - k| < 1
    · rw [addLineToGroups, if_pos hk] at hp
      rcases List.mem_cons.mp hp with rfl | hp
      · obtain ⟨r0, rest0, hls, hy⟩ := h (k, ls) (by simp)
        simp only at hls
        exact ⟨r0, rest0 ++ [r], by simp only; rw [hls]; rfl, hy⟩
      · exact h p (by simp [hp])
    · rw [addLineToGroups, if_neg hk] at hp
      rcases List.mem_cons.mp hp with rfl | hp
      · exact h (k, ls) (by simp)
      · exact ih (fun q hq => h q (by simp [hq])) p hp

theorem bucketInv_buildAux :
    ∀ (l : List (ChordLineRec σ)) (gs : List (ℚ × List (ChordLineRec σ))),
      BucketInv gs → BucketInv (l.foldl addLineToGroups gs) := by
  intro l
  induction l with
  | nil => intro gs h; exact h
  | cons r rest ih =>
    intro gs h
    exact ih _ (bucketInv_addLineToGroups r gs h)

theorem mergeChordLinesAtSameY_y (ls : List (ChordLineRec σ)) (k : ℚ) :
    (mergeChordLinesAtSameY ls k).y = k := by
  rcases h : sortByLe (fun a b => decide (a.x_start ≤ b.x_start)) ls with _ | ⟨f, rest⟩ <;>
    rw [mergeChordLinesAtSameY, h]

theorem combineGroup_y (p : ℚ × List (ChordLineRec σ))
    (h : ∃ (r : ChordLineRec σ) (rest : List (ChordLineRec σ)), p.2 = r :: rest ∧ r.y = p.1) :
    (combineGroup p).y = p.1 := by
  obtain ⟨k, ls⟩ := p
  obtain ⟨r, rest, hls, hy⟩ := h
  simp only at hls
  subst hls
  cases rest with
  | nil => exact hy
  | cons r2 rest2 => exact mergeChordLinesAtSameY_y _ k

theorem buildYGroups_of_far :
    ∀ (l pre : List (ChordLineRec σ)),
      ((pre ++ l).map (·.y)).Pairwise (fun a b : ℚ => 1 ≤ |a - b|) →
      List.foldl addLineToGroups (pre.map (fun r => (r.y, [r]))) l =
        (pre ++ l).map (fun r => (r.y, [r])) := by
  intro l
  induction l with
  | nil => intro pre _; simp
  | cons r rest ih =>
    intro pre h
    have hfar : ∀ p ∈ pre.map (fun r : ChordLineRec σ => (r.y, [r])), ¬ |r.y - p.1| < 1 := by
      intro p hp
      obtain ⟨a, ha, hpa⟩ := List.mem_map.mp hp
      rw [← hpa]
      simp only
      rw [not_lt, abs_sub_comm]
      have h1 := (List.pairwise_append.mp (by simpa using h)).2.2
      exact h1 a.y (List.mem_map.mpr ⟨a, ha, rfl⟩) r.y (by simp)
    rw [List.foldl_cons, addLineToGroups_of_far r _ hfar]
    have hmap : pre.map (fun r : ChordLineRec σ => (r.y, [r])) ++ [(r.y, [r])] =
        (pre ++ [r]).map (fun r : ChordLineRec σ => (r.y, [r])) := by simp
    rw [hmap, ih (pre ++ [r]) (by simpa [List.append_assoc] using h)]
    simp

theorem map_combineGroup_map_pair (l : List (ChordLineRec σ)) :
    (l.map (fun r => (r.y, [r]))).map combineGroup = l := by
  induction l with
  | nil => rfl
  | cons r rest ih => simp [combineGroup, ih]

theorem combineChordLines_of_ne (l : List (ChordLineRec σ)) (h : l ≠ []) :
    combineChordLinesByYPosition l = (buildYGroups l).map combineGroup := by
  cases l with
  | nil => exact absurd rfl h
  | cons a t => rfl

/-- C5: grouping chord lines by Y position is idempotent — re-running
`_combine_chord_lines_by_y_position` on its own output is a no-op,
because the emitted lines' Y values are the bucket keys, which are
pairwise at least 1.0 apart, so the second pass creates only singleton
buckets and passes every line through unchanged. -/
theorem combine_chord_lines_by_y_position_idempotent (σ : Type)
    (chord_lines : List (ChordLineRec σ)) :
    combineChordLinesByYPosition (combineChordLinesByYPosition chord_lines) =
      combineChordLinesByYPosition chord_lines := by
  by_cases h0 : chord_lines = []
  · rw [h0]; rfl
  · rw [combineChordLines_of_ne chord_lines h0]
    set out := (buildYGroups chord_lines).map combineGroup with hout
    by_cases h1 : out = []
    · rw [h1]; rfl
    · rw [combineChordLines_of_ne out h1]
      have hinv : BucketInv (buildYGroups chord_lines) :=
        bucketInv_buildAux chord_lines [] (fun p hp => absurd hp (List.not_mem_nil p))
      have hy : out.map (·.y) = (buildYGroups chord_lines).map Prod.fst := by
        rw [hout, List.map_map]
        exact List.map_congr_left (fun p hp => combineGroup_y p (hinv p hp))
      have hpair : (out.map (·.y)).Pairwise (fun a b : ℚ => 1 ≤ |a - b|) := by
        rw [hy]
        exact pairwise_keys_buildAux chord_lines [] (by simp)
      have hbuild : buildYGroups out = out.map (fun r => (r.y, [r])) := by
        rw [buildYGroups]
        have := buildYGroups_of_far out [] (by simpa using hpair)
        simpa using this
      rw [hbuild, map_combineGroup_map_pair]

end GroupingIdempotence

theorem applyPositionAdjustments_bounds (cfg : ClassifierConfig) (element : PDFTextElement)
    (text_type : TextType) (confidence : ℚ) :
    0 ≤ applyPositionAdjustments cfg element text_type confidence ∧
      applyPositionAdjustments cfg element text_type confidence ≤ 1 := by
  rw [applyPositionAdjustments]
  exact ⟨le_min zero_le_one (le_max_left 0 _), min_le_left 1 _⟩

theorem applyPositionAdjustments_verse (cfg : ClassifierConfig) (element : PDFTextElement)
    (confidence : ℚ) :
    applyPositionAdjustments cfg element TextType.VERSE_TEXT confidence =
      min 1 (max 0 confidence) := by
  simp [applyPositionAdjustments]

theorem bestRule_is_max (element : PDFTextElement) :
    ∀ (rules : List ClassificationRule) (acc : Option TextType × ℚ),
      (∀ rule ∈ rules, calculateRuleConfidence element rule ≤
        (rules.foldl (fun acc rule =>
          let c := calculateRuleConfidence element rule
          if acc.2 < c then (some rule.text_type, c) else acc) acc).2) ∧
      acc.2 ≤ (rules.foldl (fun acc rule =>
          let c := calculateRuleConfidence element rule
          if acc.2 < c then (some rule.text_type, c) else acc) acc).2 := by
  intro rules
  induction rules with
  | nil => intro acc; exact ⟨fun r hr => absurd hr (List.not_mem_nil r), le_rfl⟩
  | cons rule rest ih =>
    intro acc
    simp only [List.foldl_cons]
    by_cases hc : acc.2 < calculateRuleConfidence element rule
    · rw [if_pos hc]
      refine ⟨?_, le_trans hc.le (ih _).2⟩
      intro r hr
      rcases List.mem_cons.mp hr with rfl | hr
      · exact (ih _).2
      · exact (ih _).1 r hr
    · rw [if_neg hc]
      refine ⟨?_, (ih _).2⟩
      intro r hr
      rcases List.mem_cons.mp hr with rfl | hr
      · exact le_trans (le_of_not_lt hc) (ih _).2
      · exact (ih _).1 r hr

/-- C8: for a non-empty (after stripping) text run, `_classify_element`
picks the type of the best-scoring rule when the best rule confidence
clears the 0.3 threshold, and otherwise resolves the ambiguity locally by
defaulting to VerseText with confidence 0.5 (the position-adjustment pass
leaves the VerseText default at exactly 0.5); the best rule confidence is
an upper bound of every rule's confidence. -/
theorem classify_element_threshold (cfg : ClassifierConfig)
    (rules : List ClassificationRule) (element : PDFTextElement)
    (h : pyStrip element.text ≠ "") :
    ((bestRule element rules).2 < 0.3 →
      (classifyElement cfg rules element).text_type = TextType.VERSE_TEXT ∧
      (classifyElement cfg rules element).confidence = 0.5) ∧
    (0.3 ≤ (bestRule element rules).2 →
      (classifyElement cfg rules element).text_type =
        (bestRule element rules).1.getD TextType.UNKNOWN ∧
      (classifyElement cfg rules element).confidence =
        applyPositionAdjustments cfg element
          ((bestRule element rules).1.getD TextType.UNKNOWN) (bestRule element rules).2) ∧
    (∀ rule ∈ rules, calculateRuleConfidence element rule ≤ (bestRule element rules).2) := by
  refine ⟨?_, ?_, (bestRule_is_max element rules (none, 0)).1⟩
  · intro hlt
    rw [classifyElement, if_neg h, if_pos hlt]
    refine ⟨rfl, ?_⟩
    rw [applyPositionAdjustments_verse]
    norm_num
  · intro hge
    rw [classifyElement, if_neg h, if_neg (not_lt.mpr hge)]
    exact ⟨rfl, rfl⟩

/-- Concrete configuration used by witnesses. -/
def cfgW : ClassifierConfig := ⟨["K.", "Z."], 9⟩

/-- Concrete element used by witnesses. -/
def elW : PDFTextElement := ⟨"Hello", 10, 200, 11, false, false⟩

/-- Witness for C8 at concrete inputs. -/
theorem classify_element_threshold_witness :
    (classifyElement cfgW [] elW).text_type = TextType.VERSE_TEXT ∧
    (classifyElement cfgW [] elW).confidence = 0.5 :=
  (classify_element_threshold cfgW [] elW (by decide)).1 (by norm_num [bestRule])

theorem classifyElement_confidence_bounds (cfg : ClassifierConfig)
    (rules : List ClassificationRule) (element : PDFTextElement) :
    0 ≤ (classifyElement cfg rules element).confidence ∧
      (classifyElement cfg rules element).confidence ≤ 1 := by
  rw [classifyElement]
  by_cases h : pyStrip element.text = ""
  · rw [if_pos h]
    norm_num
  · rw [if_neg h]
    by_cases h2 : (bestRule element rules).2 < 0.3
    · rw [if_pos h2]
      exact applyPositionAdjustments_bounds cfg element _ _
    · rw [if_neg h2]
      exact applyPositionAdjustments_bounds cfg element _ _

theorem postProcessOne_confidence_bounds (cfg : ClassifierConfig) (ct : ClassifiedText)
    (h0 : 0 ≤ ct.confidence) (h1 : ct.confidence ≤ 1) :
    0 ≤ (postProcessOne cfg ct).confidence ∧ (postProcessOne cfg ct).confidence ≤ 1 := by
  rw [postProcessOne]
  split_ifs <;> first
    | exact ⟨h0, h1⟩
    | exact ⟨by norm_num, by norm_num⟩

theorem mem_insertLe {α : Type} (le : α → α → Bool) (x a : α) :
    ∀ l : List α, a ∈ insertLe le x l ↔ a = x ∨ a ∈ l := by
  intro l
  induction l with
  | nil => simp [insertLe]
  | cons b bs ih =>
    rw [insertLe]
    by_cases hb : le x b
    · rw [if_pos hb]
      simp
    · rw [if_neg hb]
      simp only [List.mem_cons, ih]
      tauto

theorem mem_sortByLe {α : Type} (le : α → α → Bool) (a : α) :
    ∀ l : List α, a ∈ sortByLe le l ↔ a ∈ l := by
  intro l
  induction l with
  | nil => simp [sortByLe]
  | cons b bs ih =>
    rw [sortByLe, List.foldr_cons, mem_insertLe]
    rw [sortByLe] at ih
    rw [ih]
    simp [eq_comm]

/-- C9: every `ClassifiedText` produced by the classification pipeline —
rule scoring, the VerseText default, the position adjustments (including
the title bias), and the post-process reclassifications — has its
confidence in the closed interval `[0, 1]`. -/
theorem classifier_confidence_in_unit_interval (cfg : ClassifierConfig)
    (rules : List ClassificationRule) (elements : List PDFTextElement)
    (ct : ClassifiedText) (h : ct ∈ classifyElements cfg rules elements) :
    0 ≤ ct.confidence ∧ ct.confidence ≤ 1 := by
  rw [classifyElements, postProcessClassifications] at h
  obtain ⟨ct', hct', rfl⟩ := List.mem_map.mp h
  have h2 := (mem_sortByLe leYX ct' _).mp hct'
  obtain ⟨el, hel, rfl⟩ := List.mem_map.mp h2
  obtain ⟨b0, b1⟩ := classifyElement_confidence_bounds cfg rules el
  exact postProcessOne_confidence_bounds cfg _ b0 b1

/-- Witness for C9 at concrete inputs. -/
theorem classifier_confidence_in_unit_interval_witness :
    0 ≤ (postProcessOne cfgW (classifyElement cfgW [] elW)).confidence ∧
      (postProcessOne cfgW (classifyElement cfgW [] elW)).confidence ≤ 1 :=
  classifier_confidence_in_unit_interval cfgW [] [elW] _
    (by exact List.mem_singleton_self _)

section VerseGrouping

theorem joinedElements_append (a b : List VerseGroup) :
    joinedElements (a ++ b) = joinedElements a ++ joinedElements b := by
  simp [joinedElements]

theorem shouldAdd_false_ne_nil (cfg : VerseBuilderConfig) (e : ClassifiedText)
    (g : VerseGroup) (h : shouldAddToCurrentGroup cfg e g = false) : g.elements ≠ [] := by
  intro hnil
  rw [shouldAddToCurrentGroup, hnil] at h
  simp at h

theorem joined_groupFinish_step (cfg : VerseBuilderConfig) (s : GroupState)
    (e : ClassifiedText) :
    joinedElements (groupFinish (groupStep cfg s e)) =
      joinedElements (groupFinish s) ++ (if keptByGrouping e then [e] else []) := by
  obtain ⟨groups, current, role⟩ := s
  by_cases hrm : e.text_type = TextType.ROLE_MARKER
  · have hkept : keptByGrouping e = false := by simp [keptByGrouping, hrm]
    rcases current with _ | g
    · simp [groupStep, hrm, hkept, groupFinish, joinedElements]
    · by_cases hg : g.elements = [] <;>
        simp [groupStep, hrm, hkept, groupFinish, joinedElements, hg]
  · by_cases hkp : e.text_type = TextType.VERSE_TEXT ∨ e.text_type = TextType.INLINE_COMMENT
    · have hkept : keptByGrouping e = true := by
        simp only [keptByGrouping]
        exact decide_eq_true hkp
      rcases current with _ | g
      · have hadd : shouldAddToCurrentGroup cfg e ⟨"", [], e.element.y, e.element.y⟩ = true := rfl
        simp [groupStep, hrm, hkp, hkept, hadd, groupFinish, joinedElements]
      · by_cases hadd : shouldAddToCurrentGroup cfg e g = true
        · by_cases hge : g.elements = [] <;>
            simp [groupStep, hrm, hkp, hkept, hadd, groupFinish, joinedElements, hge]
        · have hg : g.elements ≠ [] :=
            shouldAdd_false_ne_nil cfg e g (by rwa [Bool.not_eq_true] at hadd)
          simp [groupStep, hrm, hkp, hkept, hadd, hg, groupFinish, joinedElements]
    · have hkept : keptByGrouping e = false := by
        simp only [keptByGrouping]
        exact decide_eq_false hkp
      simp [groupStep, hrm, hkp, hkept]

theorem joined_groupFoldl (cfg : VerseBuilderConfig) :
    ∀ (l : List ClassifiedText) (s : GroupState),
      joinedElements (groupFinish (l.foldl (groupStep cfg) s)) =
        joinedElements (groupFinish s) ++ l.filter keptByGrouping := by
  intro l
  induction l with
  | nil => intro s; simp
  | cons e rest ih =>
    intro s
    rw [List.foldl_cons, ih, joined_groupFinish_step, List.filter_cons]
    by_cases hk : keptByGrouping e = true
    · simp [hk, List.append_assoc]
    · rw [Bool.not_eq_true] at hk
      simp [hk]

theorem groupStep_groups_extends (cfg : VerseBuilderConfig) (s : GroupState)
    (e : ClassifiedText) :
    ∃ tail, (groupStep cfg s e).groups = s.groups ++ tail := by
  obtain ⟨groups, current, role⟩ := s
  rw [groupStep]
  by_cases hrm : e.text_type = TextType.ROLE_MARKER
  · rw [if_pos hrm]
    rcases current with _ | g
    · exact ⟨[], by simp⟩
    · by_cases hg : g.elements ≠ []
      · exact ⟨[g], by simp [hg]⟩
      · exact ⟨[], by simp [hg]⟩
  · rw [if_neg hrm]
    by_cases hkp : e.text_type = TextType.VERSE_TEXT ∨ e.text_type = TextType.INLINE_COMMENT
    · rw [if_pos hkp]
      by_cases hadd : shouldAddToCurrentGroup cfg e
          (match current with
           | none => (⟨"", [], e.element.y, e.element.y⟩ : VerseGroup)
           | some g => g) = true
      · rw [if_pos hadd]
        exact ⟨[], by simp⟩
      · rw [if_neg hadd]
        by_cases hg : (match current with
            | none => (⟨"", [], e.element.y, e.element.y⟩ : VerseGroup)
            | some g => g).elements ≠ []
        · rw [if_pos hg]
          exact ⟨_, rfl⟩
        · rw [if_neg hg]
          exact ⟨[], by simp⟩
    · rw [if_neg hkp]
      exact ⟨[], by simp⟩

theorem firstGroupIs_groupStep (cfg : VerseBuilderConfig) (s : GroupState)
    (e : ClassifiedText) (r : String) (x : ClassifiedText)
    (h : FirstGroupIs s r x) : FirstGroupIs (groupStep cfg s e) r x := by
  rcases h with ⟨g, gs, hgs, hr, hh⟩ | ⟨hnil, g, hcur, hr, hh⟩
  · left
    obtain ⟨tail, htail⟩ := groupStep_groups_extends cfg s e
    exact ⟨g, gs ++ tail, by rw [htail, hgs]; simp, hr, hh⟩
  · have hne : g.elements ≠ [] := by
      intro h0
      rw [h0] at hh
      simp at hh
    obtain ⟨groups, current, role⟩ := s
    simp only at hnil hcur
    subst hnil
    subst hcur
    rw [groupStep]
    by_cases hrm : e.text_type = TextType.ROLE_MARKER
    · rw [if_pos hrm]
      left
      exact ⟨g, [], by simp [hne], hr, hh⟩
    · rw [if_neg hrm]
      by_cases hkp : e.text_type = TextType.VERSE_TEXT ∨ e.text_type = TextType.INLINE_COMMENT
      · rw [if_pos hkp]
        by_cases hadd : shouldAddToCurrentGroup cfg e g = true
        · rw [if_pos hadd]
          right
          refine ⟨rfl, _, rfl, hr, ?_⟩
          simp only
          rw [List.head?_append, hh]
          rfl
        · rw [if_neg hadd]
          left
          exact ⟨g, [], by simp [hne], hr, hh⟩
      · rw [if_neg hkp]
        right
        exact ⟨rfl, g, rfl, hr, hh⟩

theorem firstGroupIs_groupFoldl (cfg : VerseBuilderConfig) (r : String) (x : ClassifiedText) :
    ∀ (l : List ClassifiedText) (s : GroupState),
      FirstGroupIs s r x → FirstGroupIs (l.foldl (groupStep cfg) s) r x := by
  intro l
  induction l with
  | nil => intro s h; exact h
  | cons e rest ih =>
    intro s h
    exact ih _ (firstGroupIs_groupStep cfg s e r x h)

theorem firstGroupIs_groupFinish (s : GroupState) (r : String) (x : ClassifiedText)
    (h : FirstGroupIs s r x) :
    ∃ g tl, groupFinish s = g :: tl ∧ g.role = r ∧ g.elements.head? = some x := by
  rcases h with ⟨g, gs, hgs, hr, hh⟩ | ⟨hnil, g, hcur, hr, hh⟩
  · refine ⟨g, gs ++ (match s.current with
      | some g0 => if g0.elements ≠ [] then [g0] else []
      | none => []), ?_, hr, hh⟩
    rw [groupFinish, hgs]
    rfl
  · have hne : g.elements ≠ [] := by
      intro h0
      rw [h0] at hh
      simp at hh
    refine ⟨g, [], ?_, hr, hh⟩
    rw [groupFinish, hnil, hcur]
    simp [hne]

theorem groupStep_skip (cfg : VerseBuilderConfig) (s : GroupState) (p : ClassifiedText)
    (h1 : p.text_type ≠ TextType.ROLE_MARKER) (h2 : keptByGrouping p = false) :
    groupStep cfg s p = s := by
  rw [groupStep, if_neg h1, if_neg]
  intro hkp
  rw [keptByGrouping, decide_eq_true hkp] at h2
  exact Bool.true_eq_false.mp h2

/-- C6: in the verse builder's `_group_elements_into_verses`, (a) the
concatenation of the emitted groups' elements is exactly the VerseText /
inline-comment elements of the input in order — every kept line lands in
exactly one group — and (b) a VerseText line processed while no verse is
open (only non-role, non-verse lines before it) opens an anonymous group
with empty role that keeps the line as its first element. -/
theorem verse_builder_keeps_verse_text (cfg : VerseBuilderConfig) :
    (∀ elements : List ClassifiedText,
      joinedElements (groupElementsIntoVerses cfg elements) =
        elements.filter keptByGrouping) ∧
    (∀ (pre : List ClassifiedText) (e : ClassifiedText) (rest : List ClassifiedText),
      (∀ p ∈ pre, p.text_type ≠ TextType.ROLE_MARKER ∧ keptByGrouping p = false) →
      e.text_type = TextType.VERSE_TEXT →
      ∃ g tl, groupElementsIntoVerses cfg (pre ++ e :: rest) = g :: tl ∧
        g.role = "" ∧ g.elements.head? = some e) := by
  constructor
  · intro elements
    rw [groupElementsIntoVerses, joined_groupFoldl]
    simp [groupFinish, joinedElements]
  · intro pre e rest hpre he
    rw [groupElementsIntoVerses, List.foldl_append]
    have hskip : pre.foldl (groupStep cfg) ⟨[], none, ""⟩ = ⟨[], none, ""⟩ := by
      induction pre with
      | nil => rfl
      | cons p ps ih =>
        rw [List.foldl_cons, groupStep_skip cfg _ p (hpre p (by simp)).1 (hpre p (by simp)).2]
        exact ih (fun q hq => hpre q (by simp [hq]))
    rw [hskip, List.foldl_cons]
    apply firstGroupIs_groupFinish
    apply firstGroupIs_groupFoldl
    rw [groupStep, if_neg (by rw [he]; intro hc; exact absurd hc (by decide)),
      if_pos (Or.inl he)]
    have hadd : shouldAddToCurrentGroup cfg e ⟨"", [], e.element.y, e.element.y⟩ = true := rfl
    rw [if_pos hadd]
    right
    exact ⟨rfl, _, rfl, rfl, rfl⟩

/-- Witness for C6 at concrete inputs. -/
theorem verse_builder_keeps_verse_text_witness :
    ∃ g tl, groupElementsIntoVerses cfgVB ([] ++ ctV :: []) = g :: tl ∧
      g.role = "" ∧ g.elements.head? = some ctV :=
  (verse_builder_keeps_verse_text cfgVB).2 [] ctV []
    (fun p hp => absurd hp (List.not_mem_nil p)) rfl

end VerseGrouping

section ChordSelection

variable {σ : Type}

theorem selectStep_not_above (y : ℚ) (acc : Option (ChordLineRec σ)) (cl : ChordLineRec σ)
    (h : ¬ cl.y < y) : selectStep y acc cl = acc := by
  cases acc with
  | none => rw [selectStep, if_neg h]
  | some b => rw [selectStep, if_neg h]

theorem foldl_selectStep_skip (y : ℚ) :
    ∀ (cls : List (ChordLineRec σ)) (acc : Option (ChordLineRec σ)),
      (∀ cl ∈ cls, ¬ cl.y < y) → cls.foldl (selectStep y) acc = acc := by
  intro cls
  induction cls with
  | nil => intro acc _; rfl
  | cons cl rest ih =>
    intro acc h
    rw [List.foldl_cons, selectStep_not_above y acc cl (h cl (by simp))]
    exact ih acc (fun q hq => h q (by simp [hq]))

theorem selectStep_above (y : ℚ) (acc : Option (ChordLineRec σ)) (cl : ChordLineRec σ)
    (hacc : ∀ a, acc = some a → a.y < y) :
    ∀ a, selectStep y acc cl = some a → a.y < y := by
  intro a ha
  by_cases hcl : cl.y < y
  · cases acc with
    | none =>
      rw [selectStep, if_pos hcl] at ha
      cases ha
      exact hcl
    | some b =>
      rw [selectStep, if_pos hcl] at ha
      by_cases hlt : y - cl.y < y - b.y
      · rw [if_pos hlt] at ha
        cases ha
        exact hcl
      · rw [if_neg hlt] at ha
        cases ha
        exact hacc _ rfl
  · rw [selectStep_not_above y acc cl hcl] at ha
    exact hacc a ha

theorem foldl_selectStep_spec (y : ℚ) :
    ∀ (cls : List (ChordLineRec σ)) (acc : Option (ChordLineRec σ)),
      (∀ a, acc = some a → a.y < y) →
      ∀ b, cls.foldl (selectStep y) acc = some b →
        (acc = some b ∨ b ∈ cls) ∧ b.y < y ∧
        (∀ a, acc = some a → y - b.y ≤ y - a.y) ∧
        (∀ cl ∈ cls, cl.y < y → y - b.y ≤ y - cl.y) := by
  intro cls
  induction cls with
  | nil =>
    intro acc hacc b hb
    simp only [List.foldl_nil] at hb
    refine ⟨Or.inl hb, hacc b hb, ?_, ?_⟩
    · intro a ha
      rw [hb] at ha
      cases ha
      exact le_rfl
    · intro cl hcl
      exact absurd hcl (List.not_mem_nil cl)
  | cons cl rest ih =>
    intro acc hacc b hb
    rw [List.foldl_cons] at hb
    have hacc' : ∀ a, selectStep y acc cl = some a → a.y < y :=
      selectStep_above y acc cl hacc
    obtain ⟨hmem, hby, haccmin, hrestmin⟩ := ih (selectStep y acc cl) hacc' b hb
    by_cases hcl : cl.y < y
    · cases acc with
      | none =>
        have hstep : selectStep y none cl = some cl := by rw [selectStep, if_pos hcl]
        refine ⟨?_, hby, ?_, ?_⟩
        · rcases hmem with hmem | hmem
          · rw [hstep] at hmem
            cases hmem
            exact Or.inr (by simp)
          · exact Or.inr (by simp [hmem])
        · intro a ha
          exact absurd ha (by simp)
        · intro c hc hcy
          rcases List.mem_cons.mp hc with rfl | hc
          · exact haccmin c (by rw [hstep])
          · exact hrestmin c hc hcy
      | some a0 =>
        have ha0 : a0.y < y := hacc a0 rfl
        by_cases hlt : y - cl.y < y - a0.y
        · have hstep : selectStep y (some a0) cl = some cl := by
            rw [selectStep, if_pos hcl, if_pos hlt]
          refine ⟨?_, hby, ?_, ?_⟩
          · rcases hmem with hmem | hmem
            · rw [hstep] at hmem
              cases hmem
              exact Or.inr (by simp)
            · exact Or.inr (by simp [hmem])
          · intro a ha
            cases ha
            exact le_trans (haccmin cl (by rw [hstep])) hlt.le
          · intro c hc hcy
            rcases List.mem_cons.mp hc with rfl | hc
            · exact haccmin c (by rw [hstep])
            · exact hrestmin c hc hcy
        · have hstep : selectStep y (some a0) cl = some a0 := by
            rw [selectStep, if_pos hcl, if_neg hlt]
          refine ⟨?_, hby, ?_, ?_⟩
          · rcases hmem with hmem | hmem
            · rw [hstep] at hmem
              exact Or.inl hmem
            · exact Or.inr (by simp [hmem])
          · intro a ha
            cases ha
            exact haccmin a0 (by rw [hstep])
          · intro c hc hcy
            rcases List.mem_cons.mp hc with rfl | hc
            · exact le_trans (haccmin a0 (by rw [hstep])) (le_of_not_lt hlt)
            · exact hrestmin c hc hcy
    · have hstep : selectStep y acc cl = acc := selectStep_not_above y acc cl hcl
      rw [hstep] at hmem haccmin
      refine ⟨?_, hby, haccmin, ?_⟩
      · rcases hmem with hmem | hmem
        · exact Or.inl hmem
        · exact Or.inr (by simp [hmem])
      · intro c hc hcy
        rcases List.mem_cons.mp hc with rfl | hc
        · exact absurd hcy hcl
        · exact hrestmin c hc hcy

/-- C3: `_find_chords_with_span_positioning` returns the empty chord list
(silently, never an error) when no chord line lies strictly above the text
line or when the nearest one is more than 18.0 pixels above; otherwise it
attaches chords only from the selected chord line, which is a nearest line
strictly above the text line. -/
theorem find_chords_nearest_above_or_empty
    (findPos : String → ℚ → ℚ → List (String × ℚ))
    (text_line : TextLineRec) (chord_lines : List (ChordLineRec σ)) :
    ((∀ cl ∈ chord_lines, ¬ cl.y < text_line.y) →
      findChordsWithSpanPositioning findPos text_line chord_lines = []) ∧
    (∀ b, selectBestChordLine text_line.y chord_lines = some b →
      b ∈ chord_lines ∧ b.y < text_line.y ∧
      ∀ cl ∈ chord_lines, cl.y < text_line.y → text_line.y - b.y ≤ text_line.y - cl.y) ∧
    (∀ b, selectBestChordLine text_line.y chord_lines = some b →
      18 < text_line.y - b.y →
      findChordsWithSpanPositioning findPos text_line chord_lines = []) ∧
    (∀ b, selectBestChordLine text_line.y chord_lines = some b →
      text_line.y - b.y ≤ 18 →
      findChordsWithSpanPositioning findPos text_line chord_lines =
        sortChordsByPosition
          ((findPos b.text b.x_start b.width).map (fun p =>
            ⟨p.1,
             mapChordToVersePosition p.2 b.x_start b.width
               text_line.text_content.data text_line.x_start text_line.width
               text_line.font_size,
             p.2⟩))) := by
  refine ⟨?_, ?_, ?_, ?_⟩
  · intro h
    rw [findChordsWithSpanPositioning, selectBestChordLine,
      foldl_selectStep_skip text_line.y chord_lines none h]
  · intro b hb
    obtain ⟨hmem, hby, _, hmin⟩ := foldl_selectStep_spec text_line.y chord_lines none
      (fun a ha => absurd ha (by simp)) b hb
    refine ⟨?_, hby, hmin⟩
    rcases hmem with hmem | hmem
    · exact absurd hmem (by simp)
    · exact hmem
  · intro b hb hfar
    rw [findChordsWithSpanPositioning, hb]
    exact if_pos hfar
  · intro b hb hnear
    rw [findChordsWithSpanPositioning, hb]
    exact if_neg (not_lt.mpr hnear)

/-- Concrete chord line used by the C3 witness: 10 pixels above the text
line at y = 50, hence within the 18-pixel limit. -/
def clNear : ChordLineRec Unit :=
  ⟨"A", "A", 10, 40, 30, 40, 10, 0, true, "Arial", []⟩

/-- Concrete text line used by the C3 witness. -/
def tlW : TextLineRec := ⟨"Hello world", "Hello world", 10, 100, 50, 11⟩

/-- Witness for C3 at concrete inputs: an empty chord-line list yields no
chords, and a chord line 10 pixels above is selected and used. -/
theorem find_chords_nearest_above_or_empty_witness :
    findChordsWithSpanPositioning (fun _ _ _ => []) tlW ([] : List (ChordLineRec Unit)) = [] ∧
    findChordsWithSpanPositioning (fun _ _ _ => []) tlW [clNear] =
      sortChordsByPosition (([] : List (String × ℚ)).map (fun p =>
        ⟨p.1,
         mapChordToVersePosition p.2 clNear.x_start clNear.width
           tlW.text_content.data tlW.x_start tlW.width tlW.font_size,
         p.2⟩)) :=
  ⟨(find_chords_nearest_above_or_empty (fun _ _ _ => []) tlW []).1
      (fun cl hcl => absurd hcl (List.not_mem_nil cl)),
   (find_chords_nearest_above_or_empty (fun _ _ _ => []) tlW [clNear]).2.2.2
      clNear rfl (by norm_num [tlW, clNear])⟩

end ChordSelection

section ChordInsertion

theorem specText_eq_drop (t : List Char) :
    ∀ (cs : List (String × ℕ)) (i : ℕ), specText t i cs = t.drop i := by
  intro cs
  induction cs with
  | nil => intro i; rfl
  | cons c cs ih =>
    intro i
    obtain ⟨n, p⟩ := c
    rw [specText, ih]
    by_cases h : i ≤ min p t.length
    · rw [max_eq_right h]
      have hdd : (t.drop i).drop (min p t.length - i) = t.drop (min p t.length) := by
        rw [List.drop_drop]
        congr 1
        omega
      rw [← hdd, List.take_append_drop]
    · push_neg at h
      rw [max_eq_left h.le, Nat.sub_eq_zero_of_le h.le]
      simp

theorem posChordsLoop_eq_specInsert (t : List Char) :
    ∀ (cs : List Chord) (result : List Char) (i : ℕ), i ≤ t.length →
      posChordsLoop t cs result i =
        result ++ specInsert t i (cs.map fun c => (c.chord, c.position)) := by
  intro cs
  induction cs with
  | nil =>
    intro result i hi
    rw [posChordsLoop, List.map_nil, specInsert]
    by_cases h : i < t.length
    · rw [if_pos h]
    · rw [if_neg h]
      rw [List.drop_eq_nil_of_le (le_of_not_lt h)]
      simp
  | cons c cs ih =>
    intro result i hi
    rw [posChordsLoop, List.map_cons, specInsert]
    by_cases hp : t.length ≤ c.position
    · rw [if_pos hp, min_eq_right hp, max_eq_right hi]
      have htake : (t.drop i).take (t.length - i) = t.drop i := by
        rw [← List.length_drop]
        exact List.take_length _
      rw [htake, ih _ t.length le_rfl]
      by_cases hlt : i < t.length
      · rw [if_pos hlt]
        simp [List.append_assoc]
      · rw [if_neg hlt]
        rw [List.drop_eq_nil_of_le (le_of_not_lt hlt)]
        simp
    · rw [if_neg hp]
      push_neg at hp
      rw [min_eq_left hp.le]
      by_cases hlt : i < c.position
      · rw [if_pos hlt, max_eq_right hlt.le, ih _ c.position hp.le]
        simp [List.append_assoc]
      · rw [if_neg hlt, max_eq_left (le_of_not_lt hlt),
          Nat.sub_eq_zero_of_le (le_of_not_lt hlt), ih _ i hi]
        simp

theorem insertLe_eq_orderedInsert {α : Type} (r : α → α → Prop) [DecidableRel r] (a : α) :
    ∀ l : List α, insertLe (fun x y => decide (r x y)) a l = List.orderedInsert r a l := by
  intro l
  induction l with
  | nil => rfl
  | cons b bs ih =>
    rw [insertLe, List.orderedInsert]
    by_cases h : r a b
    · rw [if_pos (decide_eq_true h), if_pos h]
    · rw [if_neg (by simpa using h), if_neg h, ih]

theorem sortByLe_eq_insertionSort {α : Type} (r : α → α → Prop) [DecidableRel r] :
    ∀ l : List α, sortByLe (fun x y => decide (r x y)) l = List.insertionSort r l := by
  intro l
  induction l with
  | nil => rfl
  | cons a l ih =>
    rw [sortByLe, List.foldr_cons, List.insertionSort]
    rw [sortByLe] at ih
    rw [ih, insertLe_eq_orderedInsert]

/-- C10: for a lyric text containing a non-whitespace character,
`_position_chords_in_lyrics` produces exactly the lyric text with
`[chord]` bracket groups inserted: the output equals the spec-side
insertion of the position-sorted chords at their clamped positions
(chords at or past the end of the text are appended after it); the
inserted chords are a permutation of the input in nondecreasing position
order; and deleting every inserted bracket group (keeping only the text
slices) recovers the input text exactly. -/
theorem position_chords_in_lyrics_characterization (chords : List Chord)
    (lyric_text : String) (h : pyStrip lyric_text ≠ "") :
    (positionChordsInLyrics chords lyric_text).data =
      specInsert lyric_text.data 0
        ((sortChordsByPosition chords).map fun c => (c.chord, c.position)) ∧
    List.Chain' (fun a b : Chord => a.position ≤ b.position) (sortChordsByPosition chords) ∧
    (sortChordsByPosition chords).Perm chords ∧
    specText lyric_text.data 0
      ((sortChordsByPosition chords).map fun c => (c.chord, c.position)) =
      lyric_text.data := by
  have hsort : sortChordsByPosition chords =
      List.insertionSort (fun a b : Chord => a.position ≤ b.position) chords :=
    sortByLe_eq_insertionSort (fun a b : Chord => a.position ≤ b.position) chords
  haveI hTot : IsTotal Chord (fun a b : Chord => a.position ≤ b.position) :=
    ⟨fun a b => Nat.le_total a.position b.position⟩
  haveI hTrans : IsTrans Chord (fun a b : Chord => a.position ≤ b.position) :=
    ⟨fun _ _ _ hab hbc => le_trans hab hbc⟩
  refine ⟨?_, ?_, ?_, specText_eq_drop _ _ 0⟩
  · by_cases h0 : chords = []
    · subst h0
      rw [positionChordsInLyrics, if_pos (Or.inl rfl), if_neg (by simp)]
      rfl
    · rw [positionChordsInLyrics, if_neg (by simp [h0, h])]
      rw [show (⟨posChordsLoop lyric_text.data (sortChordsByPosition chords) [] 0⟩ :
          String).data = posChordsLoop lyric_text.data (sortChordsByPosition chords) [] 0
        from rfl]
      rw [posChordsLoop_eq_specInsert lyric_text.data _ [] 0 (Nat.zero_le _)]
      rfl
  · rw [hsort]
    exact (List.sorted_insertionSort _ chords).chain'
  · rw [hsort]
    exact List.perm_insertionSort _ chords

/-- Concrete chords used by the C10 witness. -/
def chordsW : List Chord := [⟨"G", 7, 55⟩, ⟨"C", 0, 5⟩]

/-- Witness for C10 at concrete inputs. -/
theorem position_chords_in_lyrics_characterization_witness :
    (positionChordsInLyrics chordsW "Hello world").data =
      specInsert "Hello world".data 0
        ((sortChordsByPosition chordsW).map fun c => (c.chord, c.position)) ∧
    List.Chain' (fun a b : Chord => a.position ≤ b.position) (sortChordsByPosition chordsW) ∧
    (sortChordsByPosition chordsW).Perm chordsW ∧
    specText "Hello world".data 0
      ((sortChordsByPosition chordsW).map fun c => (c.chord, c.position)) =
      "Hello world".data :=
  position_chords_in_lyrics_characterization chordsW "Hello world" (by decide)

end ChordInsertion

/-- C7 counterexample: with the Croatian role markers, a "K." line
immediately followed by a "Z." line and nothing else produces NO verses at
all — in particular no empty-lined Verse for "K." is emitted, because the
parser emits a verse on a role-marker transition only when
`current_verse_lines` is non-empty. -/
theorem role_marker_pair_emits_no_empty_verse :
    parseVersesWithSpanPositioning hrRoles (fun _ _ _ => []) none
      [kLine, zLine] ([] : List (ChordLineRec Unit)) = [] := by decide

/-- C7 amended: the first role's empty verse is discarded rather than
emitted, the second role becomes current and collects the following
VerseText, and zero VerseText lines are dropped. -/
theorem role_marker_pair_amended :
    parseVersesWithSpanPositioning hrRoles (fun _ _ _ => []) none
      [kLine, zLine, tLine] ([] : List (ChordLineRec Unit)) =
      [⟨"Z.", [⟨"Pjevajmo svi", [], "Pjevajmo svi"⟩], "verse"⟩] := by decide

/-- Witness for C1 at concrete inputs. -/
theorem map_chord_to_verse_position_correct_witness :
    (0 : ℚ) < 100 ∧
    mapChordToVersePosition 30 0 0 ("abc".data) 0 100 10 =
      specCharIndex ("abc".data) 0 10 (max 0 (min 30 (0 + 100))) :=
  ⟨by norm_num,
   map_chord_to_verse_position_correct 30 0 0 ("abc".data) 0 100 10 (by norm_num)⟩

theorem le_mapPosLoop (target fs : ℚ) :
    ∀ (l : List Char) (cur : ℚ) (i : ℕ), i ≤ mapPosLoop target fs l cur i := by
  intro l
  induction l with
  | nil => intro cur i; simp [mapPosLoop]
  | cons c rest ih =>
    intro cur i
    simp only [mapPosLoop]
    by_cases hc : target ≤ cur + getCharWidth c fs / 2
    · rw [if_pos hc]
    · rw [if_neg hc]
      exact le_trans (Nat.le_succ i) (ih _ (i + 1))

theorem mapPosLoop_mono (t1 t2 fs : ℚ) (h : t1 ≤ t2) :
    ∀ (l : List Char) (cur : ℚ) (i : ℕ),
      mapPosLoop t1 fs l cur i ≤ mapPosLoop t2 fs l cur i := by
  intro l
  induction l with
  | nil => intro cur i; simp [mapPosLoop]
  | cons c rest ih =>
    intro cur i
    simp only [mapPosLoop]
    by_cases h2 : t2 ≤ cur + getCharWidth c fs / 2
    · rw [if_pos h2, if_pos (le_trans h h2)]
    · rw [if_neg h2]
      by_cases h1 : t1 ≤ cur + getCharWidth c fs / 2
      · rw [if_pos h1]
        exact le_trans (Nat.le_succ i) (le_mapPosLoop t2 fs rest _ (i + 1))
      · rw [if_neg h1]
        exact ih _ (i + 1)

/-- C2: chord positioning is monotone in the chord pixel x — for a fixed
lyric line (text, span start, span width, font size) and `x1 < x2`, the
character offsets satisfy `offset(x1) ≤ offset(x2)`. -/
theorem map_chord_to_verse_position_mono
    (x1 x2 chord_span_start chord_span_width : ℚ) (verse_text : List Char)
    (verse_span_start verse_span_width font_size : ℚ)
    (h : x1 < x2) :
    mapChordToVersePosition x1 chord_span_start chord_span_width
        verse_text verse_span_start verse_span_width font_size ≤
      mapChordToVersePosition x2 chord_span_start chord_span_width
        verse_text verse_span_start verse_span_width font_size := by
  rw [mapChordToVersePosition, mapChordToVersePosition]
  by_cases hw : verse_span_width = 0
  · rw [if_pos hw, if_pos hw]
  · rw [if_neg hw, if_neg hw]
    have hclamp : max verse_span_start (min x1 (verse_span_start + verse_span_width)) ≤
        max verse_span_start (min x2 (verse_span_start + verse_span_width)) :=
      max_le_max le_rfl (min_le_min h.le le_rfl)
    exact min_le_min (mapPosLoop_mono _ _ font_size hclamp verse_text verse_span_start 0) le_rfl

/-- C4: the merged spelling "Remaj7" and the spaced spelling "Re maj7" of
the same chord do not canonicalize identically in
`_normalize_merged_italian_chord_in_extractor` — the minor-mark branch
(`remaining.startswith('m')`) captures "maj7" before the dedicated
`'maj7'` extension branch can fire, producing "Re m aj7"; that dedicated
branch is dead code for "maj7", so the code contradicts its own intended
case split.  The detector-level `_normalize_chord`, by contrast, maps
merged and spaced spellings to the same string (space removal), as shown
by the spec's own example "Rem9" / "Re m 9". -/
theorem normalize_merged_italian_maj7_divergence :
    normalizeMergedItalianChord "Remaj7" = "Re m aj7" ∧
    normalizeMergedItalianChord "Re maj7" = "Re maj7" ∧
    normalizeMergedItalianChord "Remaj7" ≠ normalizeMergedItalianChord "Re maj7" ∧
    ∀ rules, normalizeChord rules "Rem9" = normalizeChord rules "Re m 9" := by
  refine ⟨by decide, by decide, by decide, fun rules => ?_⟩
  rw [normalizeChord, normalizeChord, if_neg (by decide), if_neg (by decide)]
  rw [show (pyReplace "Rem9" " " "") = (pyReplace "Re m 9" " " "") from by decide]

/-- Witness for C2 at concrete inputs. -/
theorem map_chord_to_verse_position_mono_witness :
    (5 : ℚ) < 55 ∧
    mapChordToVersePosition 5 0 0 ("Hello world".data) 0 100 10 ≤
      mapChordToVersePosition 55 0 0 ("Hello world".data) 0 100 10 :=
  ⟨by norm_num,
   map_chord_to_verse_position_mono 5 55 0 0 ("Hello world".data) 0 100 10 (by norm_num)⟩

end Resurrexit
